import Mathlib

set_option autoImplicit false

namespace HiglassViewer

/-!
Shallow embedding of `higlass/viewer.py`.

Part 1: the asynchronous correlation bridge of `HiGlassDisplay`
(`get_base64_img` and `_handle_js_events`, viewer.py lines 63-83).
The widget keeps a dict `self.callbacks : uuid -> callback`; the inbound
message handler looks up `content["params"]["uuid"]`, invokes the stored
callback with `content["imgData"]`, and then deletes the entry, with the
whole body wrapped in `try/except Exception` that logs and swallows any
exception (KeyError from a missing key or unknown uuid, or an exception
raised by the callback itself).
-/

/-- A reply callback stored in `self.callbacks`. Python function objects are
always truthy, so the `if self.callbacks[uuid]:` guard passes for every stored
callback. The field `id` distinguishes callbacks; `raises` records whether
invoking the callback raises an exception, the only aspect of its behaviour
the handler reacts to. -/
structure CB where
  id : Nat
  raises : Bool
deriving DecidableEq

/-- The pending-callback dict `self.callbacks`, as an association list in
insertion order (Python dicts preserve insertion order). -/
abbrev Callbacks := List (String × CB)

/-- Dict lookup `self.callbacks[u]`, `none` when the key raises `KeyError`. -/
def lookupCB : Callbacks → String → Option CB
  | [], _ => none
  | (k, c) :: rest, u => if k = u then some c else lookupCB rest u

/-- Dict assignment `self.callbacks[u] = c`: replace the value in place when
the key exists, append otherwise. -/
def insertCB : Callbacks → String → CB → Callbacks
  | [], u, c => [(u, c)]
  | (k, c0) :: rest, u, c =>
    if k = u then (u, c) :: rest else (k, c0) :: insertCB rest u c

/-- Dict deletion `del self.callbacks[u]`. -/
def eraseCB : Callbacks → String → Callbacks
  | [], _ => []
  | (k, c) :: rest, u =>
    if k = u then eraseCB rest u else (k, c) :: eraseCB rest u

/-- An inbound message `content`. The field `uuid` is
`content["params"]["uuid"]` when both nested keys exist (`none` models the
`KeyError` on a message missing the correlation fields); `imgData` is
`content["imgData"]` when present. -/
structure Msg where
  uuid : Option String
  imgData : Option String
deriving DecidableEq

/-- Observable actions performed by the handler, in program order:
a callback invocation, a dict entry deletion, and the `self.log.error` /
`self.log.exception` pair run by the `except` clause. -/
inductive Action where
  | invoked (uuid : String) (cb : CB) (payload : String)
  | deleted (uuid : String)
  | loggedError
deriving DecidableEq

/-- Body of the `try:` block of `_handle_js_events` (viewer.py lines 77-80).
`Except.error` carries the state and the actions performed up to the raise
point: a `KeyError` from `content["params"]`/`content["params"]["uuid"]`, a
`KeyError` from an unknown uuid in `self.callbacks`, a `KeyError` from a
missing `content["imgData"]`, or an exception raised by the callback itself
(in which case the invocation happened but the `del` did not). -/
def handleBody (cbs : Callbacks) (m : Msg) :
    Except (Callbacks × List Action) (Callbacks × List Action) :=
  match m.uuid with
  | none => Except.error (cbs, [])
  | some u =>
    match lookupCB cbs u with
    | none => Except.error (cbs, [])
    | some cb =>
      match m.imgData with
      | none => Except.error (cbs, [])
      | some d =>
        if cb.raises then Except.error (cbs, [Action.invoked u cb d])
        else Except.ok (eraseCB cbs u, [Action.invoked u cb d, Action.deleted u])

/-- The handler `_handle_js_events` (viewer.py lines 76-83): run the body;
on an exception, log it (the `except Exception` clause) and return normally
with the state reached at the raise point. -/
def handleJsEvents (cbs : Callbacks) (m : Msg) : Callbacks × List Action :=
  match handleBody cbs m with
  | Except.ok r => r
  | Except.error (cbs1, acts) => (cbs1, acts ++ [Action.loggedError])

/-- The outbound message sent by `get_base64_img` (viewer.py line 74). -/
structure OutMsg where
  request : String
  uuid : String
deriving DecidableEq

/-- `get_base64_img(callback)` with generated uuid `u` (viewer.py lines
69-74): store the callback under `u` and send the `save_as_png` request. -/
def get_base64_img (cbs : Callbacks) (u : String) (cb : CB) :
    Callbacks × OutMsg :=
  (insertCB cbs u cb, OutMsg.mk "save_as_png" u)

/-- Does this action record an invocation of the callback pending for `u`? -/
def Action.isInvokedFor : Action → String → Bool
  | Action.invoked u _ _, u2 => u = u2
  | _, _ => false

/-- Does this action record the deletion of the pending entry for `u`? -/
def Action.isDeletedFor : Action → String → Bool
  | Action.deleted u, u2 => u = u2
  | _, _ => false

/-- The pending entry for `u` is removed at an earlier position of the action
list than some invocation of `u` (what the spec asserts about the handler). -/
def removalPrecedesInvocation (acts : List Action) (u : String) : Prop :=
  ∃ i j : Fin acts.length, i.val < j.val ∧
    (acts.get i).isDeletedFor u ∧ (acts.get j).isInvokedFor u

instance (acts : List Action) (u : String) :
    Decidable (removalPrecedesInvocation acts u) := by
  unfold removalPrecedesInvocation; infer_instance

/-! Traces of bridge operations: interleavings of `get_base64_img` calls
(each with its generated uuid) and inbound message deliveries. -/

/-- One bridge event: a request issued through `get_base64_img` with generated
uuid `u` and callback `cb`, or an inbound message delivered to
`_handle_js_events`. -/
inductive Event where
  | request (u : String) (cb : CB)
  | deliver (m : Msg)
deriving DecidableEq

/-- Effect of one event on the pending-callback dict, with the actions it
performs. -/
def stepEvent (cbs : Callbacks) : Event → Callbacks × List Action
  | Event.request u cb => ((get_base64_img cbs u cb).1, [])
  | Event.deliver m => handleJsEvents cbs m

/-- Run a trace of events from a given dict, accumulating the action log. -/
def runEvents (cbs : Callbacks) : List Event → Callbacks × List Action
  | [] => (cbs, [])
  | e :: es =>
    let r1 := stepEvent cbs e
    let r2 := runEvents r1.1 es
    (r2.1, r1.2 ++ r2.2)

/-- Action log of a trace run from the fresh widget state (`self.callbacks`
starts as the empty dict in `__init__`, viewer.py line 65). -/
def runLog (evs : List Event) : List Action := (runEvents [] evs).2

/-- Uuids of the requests issued in a trace, in order. -/
def requestUuids (evs : List Event) : List String :=
  evs.filterMap fun e =>
    match e with
    | Event.request u _ => some u
    | Event.deliver _ => none

/-- Number of invocations of uuid `u` recorded in an action log. -/
def invCount (u : String) (acts : List Action) : Nat :=
  acts.countP (fun a => a.isInvokedFor u)

/-- Number of requests issued for uuid `u` in a trace. -/
def reqCount (u : String) (evs : List Event) : Nat :=
  (requestUuids evs).count u

/-!
Part 2: the view/server composition engine (`display`, viewer.py lines
107-165). `display` collects the tileset references of the given views
(lines 124-134), starts a backend server for them (lines 136-137, an external
collaborator whose only relevant output is `server.api_address`), deep-clones
every view (line 139, via `View.from_dict(view.to_dict())` from
`higlass/client.py`), and mutates each cloned track's `conf` dict in place to
point at the backend (lines 141-149).

Mutation claims are stated over an explicit object heap: every `conf` dict is
a mutable cell identified by a `Nat` id, and tracks hold the id of their
cell. Which cells an operation writes is then a statement in the model, just
as object identity is in Python.
-/

/-- A track configuration dict (`track.conf`). A key maps to `none` for the
Python value `None` and to `some s` for any other value (opaque here, rendered
as a string). Insertion order is kept, as Python dicts keep it. -/
abbrev Conf := List (String × Option String)

/-- Dict lookup in a configuration: `none` means the key is absent,
`some none` that it is present with value `None`, and `some (some s)` that it
is present with value `s`. -/
def clookup : Conf → String → Option (Option String)
  | [], _ => none
  | (k, v) :: rest, key => if k = key then some v else clookup rest key

/-- Dict assignment `conf[key] = v`: replace in place when the key exists,
append otherwise. -/
def cinsert : Conf → String → Option String → Conf
  | [], key, v => [(key, v)]
  | (k, v0) :: rest, key, v =>
    if k = key then (key, v) :: rest else (k, v0) :: cinsert rest key v

/-- The object heap of configuration cells. -/
abbrev Heap := Nat → Conf

/-- Write one heap cell. -/
def hset (h : Heap) (i : Nat) (c : Conf) : Heap :=
  fun j => if j = i then c else h j

/-- A track of a view. A `combined` track is a `CombinedTrack` (it has the
`tracks` attribute the loops test with `hasattr`/`isinstance`); a `leaf`
track optionally carries a tileset reference (an opaque id). `confId` is the
heap cell of the track's `conf` dict. The tree shape (nested composite
children) follows spec §3; `higlass/client.py`, which defines the track
classes, is not part of the sources. -/
inductive Track where
  | leaf (confId : Nat) (tileset : Option String)
  | combined (confId : Nat) (children : List Track)

/-- A view: an ordered sequence of tracks. View-level layout attributes play
no role in the claims and are omitted. -/
structure View where
  tracks : List Track

/-- The heap cell of a track's `conf` dict. -/
def Track.confId : Track → Nat
  | Track.leaf cid _ => cid
  | Track.combined cid _ => cid

/-- Attribute `track.tileset`. Modelled from the spec for composite tracks:
spec §3 says only leaf tracks carry tileset references, so a
`CombinedTrack`'s `tileset` attribute is the falsy `None`. -/
def Track.tilesetOf : Track → Option String
  | Track.leaf _ ts => ts
  | Track.combined _ _ => none

/-- Tileset references collected from one top-level track by the loop at
viewer.py lines 127-134: when the track has a `tracks` attribute (a
`CombinedTrack`), the truthy `tileset`s of its immediate children are
collected first, then the track's own `tileset` attribute is tested. The
loop never recurses deeper than the immediate children. -/
def extractTrack (t : Track) : List String :=
  (match t with
   | Track.combined _ children => children.filterMap Track.tilesetOf
   | Track.leaf _ _ => []) ++ (Track.tilesetOf t).toList

/-- The tileset-collection loop of `display` (viewer.py lines 124-134). -/
def extractTilesets (views : List View) : List String :=
  views.flatMap fun v => v.tracks.flatMap extractTrack

/-- Modelled from the spec: the tileset references of all tileset-bearing
descendants of a track list, at any nesting depth, depth-first with children
in original order (spec §4.1, `extractTilesets` is described as recursing
into composite children). Used to state the recursive-walk claim the loop is
measured against. -/
def deepTilesets : List Track → List String
  | [] => []
  | Track.leaf _ ts :: rest => ts.toList ++ deepTilesets rest
  | Track.combined _ children :: rest =>
    deepTilesets children ++ deepTilesets rest

/-- Configuration cells reachable from a list of tracks, at any depth. -/
def confIdsT : List Track → List Nat
  | [] => []
  | Track.leaf cid _ :: rest => cid :: confIdsT rest
  | Track.combined cid children :: rest =>
    cid :: (confIdsT children ++ confIdsT rest)

/-- Configuration cells reachable from a list of views. -/
def viewsConfIds (vs : List View) : List Nat :=
  vs.flatMap fun v => confIdsT v.tracks

/-- Modelled from the spec: the deep clone
`View.from_dict(view.to_dict())` of viewer.py line 139. `View.from_dict` and
`to_dict` live in `higlass/client.py`, which is not part of the sources; spec
§4.2 step 3 specifies a deep clone of every view (tracks, nested composite
children, all configuration maps) that is structurally independent of the
original. Each track is rebuilt with a fresh configuration cell (allocated
from `next` upward) holding a copy of the original cell's contents. -/
def cloneTracks (h : Heap) (next : Nat) : List Track → List Track × Heap × Nat
  | [] => ([], h, next)
  | Track.leaf cid ts :: rest =>
    let r := cloneTracks (hset h next (h cid)) (next + 1) rest
    (Track.leaf next ts :: r.1, r.2.1, r.2.2)
  | Track.combined cid children :: rest =>
    let rc := cloneTracks (hset h next (h cid)) (next + 1) children
    let rr := cloneTracks rc.2.1 rc.2.2 rest
    (Track.combined next rc.1 :: rr.1, rr.2.1, rr.2.2)

/-- Clone every view: `[View.from_dict(view.to_dict()) for view in views]`
(viewer.py line 139). -/
def cloneViews (h : Heap) (next : Nat) : List View → List View × Heap × Nat
  | [] => ([], h, next)
  | v :: vs =>
    let rt := cloneTracks h next v.tracks
    let rv := cloneViews rt.2.1 rt.2.2 vs
    (View.mk rt.1 :: rv.1, rv.2.1, rv.2.2)

/-- One guarded assignment of the rewriting loop:
`if "server" not in track.conf or track.conf["server"] is None:
track.conf["server"] = server.api_address` (viewer.py lines 145-146 and
148-149), acting on the configuration cell `cid`. -/
def setServer (h : Heap) (cid : Nat) (address : String) : Heap :=
  match clookup (h cid) "server" with
  | none => hset h cid (cinsert (h cid) "server" (some address))
  | some none => hset h cid (cinsert (h cid) "server" (some address))
  | some (some _) => h

/-- Rewriting pass over one top-level track (viewer.py lines 142-149): a
`CombinedTrack` has the guarded assignment applied to each immediate child's
`conf`, any other track to its own `conf`. -/
def rewriteTrack (address : String) (h : Heap) : Track → Heap
  | Track.combined _ children =>
    children.foldl (fun h2 c => setServer h2 c.confId address) h
  | Track.leaf cid _ => setServer h cid address

/-- Rewriting pass over one view's tracks (viewer.py lines 142-149). -/
def rewriteView (address : String) (h : Heap) (v : View) : Heap :=
  v.tracks.foldl (rewriteTrack address) h

/-- The server-rewriting loop of `display` (viewer.py lines 141-149), run on
the cloned views with `address = server.api_address`. -/
def rewriteViews (h : Heap) (address : String) (vs : List View) : Heap :=
  vs.foldl (rewriteView address) h

/-- Fold of the guarded assignment over a list of configuration cells; the
rewriting loop is equal to this fold over all its target cells. -/
def setServerFold (h : Heap) (address : String) (targets : List Nat) : Heap :=
  targets.foldl (fun h2 cid => setServer h2 cid address) h

/-- Configuration cells the rewriting loop assigns through for one top-level
track: every immediate child's `conf` for a `CombinedTrack`, the track's own
`conf` otherwise — regardless of whether any of them carries a tileset. -/
def Track.serverTargets : Track → List Nat
  | Track.combined _ children => children.map Track.confId
  | Track.leaf cid _ => [cid]

/-- All configuration cells the rewriting loop assigns through. -/
def serverTargetsViews (vs : List View) : List Nat :=
  vs.flatMap fun v => v.tracks.flatMap Track.serverTargets

/-- The rewrite guard `"server" not in conf or conf["server"] is None`. -/
def serverUnset (c : Conf) : Prop :=
  clookup c "server" = none ∨ clookup c "server" = some none

/-- The composition pipeline of `display` (viewer.py lines 124-149): collect
the tilesets, hand them to the backend collaborator (whose address `a` is
its only relevant output), deep-clone the views, and rewrite the clones'
`server` fields in place. Returns the collected tilesets, the cloned views,
and the heap after rewriting. -/
def displayCompose (h : Heap) (next : Nat) (a : String) (vs : List View) :
    List String × List View × Heap :=
  let r := cloneViews h next vs
  (extractTilesets vs, r.1, rewriteViews r.2.1 a r.1)

/-!
Part 3: the image artifact helper `save_b64_image_to_png` (viewer.py lines
22-28): `imgdata = base64.b64decode(b64str.split(",")[1])`, then the raw
bytes are written to the file.
-/

/-- Value of a standard base64 alphabet character, `none` for any other
character. -/
def b64charVal (c : Char) : Option Nat :=
  if 'A' ≤ c ∧ c ≤ 'Z' then some (c.toNat - 65)
  else if 'a' ≤ c ∧ c ≤ 'z' then some (c.toNat - 97 + 26)
  else if '0' ≤ c ∧ c ≤ '9' then some (c.toNat - 48 + 52)
  else if c = '+' then some 62
  else if c = '/' then some 63
  else none

/-- Decode a sequence of 6-bit values, given the number of `=` padding
characters that accompanied them, into bytes. -/
def b64groups : List Nat → Nat → Option (List Nat)
  | a :: b :: c :: d :: rest, pads =>
    Option.map
      (fun t =>
        (a * 4 + b / 16) :: ((b % 16) * 16 + c / 4) :: ((c % 4) * 64 + d) :: t)
      (b64groups rest pads)
  | [a, b, c], pads =>
    if 1 ≤ pads then some [a * 4 + b / 16, (b % 16) * 16 + c / 4] else none
  | [a, b], pads => if 2 ≤ pads then some [a * 4 + b / 16] else none
  | [_], _ => none
  | [], _ => some []

/-- Python `str.split(",")` on the character sequence of the input: split at
every comma; n commas yield n+1 (possibly empty) fields. -/
def splitOnComma : List Char → List (List Char)
  | [] => [[]]
  | c :: rest =>
    if c = ',' then [] :: splitOnComma rest
    else
      match splitOnComma rest with
      | [] => [c] :: []
      | p :: ps => (c :: p) :: ps

/-- Python `base64.b64decode` with default arguments on a character
sequence: characters outside the base64 alphabet are discarded, `=` counts
as padding, and `none` models the `binascii.Error` raised on malformed
input. -/
def b64decode (cs : List Char) : Option (List Nat) :=
  b64groups (cs.filterMap b64charVal) (cs.countP (fun c => c == '='))

/-- Bytes written by `save_b64_image_to_png(filename, b64str)` (viewer.py
lines 22-28): `base64.b64decode(b64str.split(",")[1])`. The element at index
1 of `b64str.split(",")` is the text between the first and the second comma
(or everything after the first comma when there is no second one); `none`
models an exception thrown before the write (the `IndexError` when the
string has no comma, or a decode error). The filename only names the output
file and plays no role in the bytes written. -/
def save_b64_image_to_png (b64str : String) : Option (List Nat) :=
  match (splitOnComma b64str.data).get? 1 with
  | none => none
  | some payload => b64decode payload

/-- Modelled from the spec: "decode the payload after its first comma" — the
whole text following the first comma of the input (spec §6 and §8.8). -/
def afterFirstComma (s : String) : Option (List Char) :=
  match splitOnComma s.data with
  | [] => none
  | [_] => none
  | _ :: r1 :: rrest => some (List.intercalate [','] (r1 :: rrest))

/-! Theorems about the dict operations and the handler. -/

/-! Basic dict lemmas. -/

theorem lookupCB_insertCB_self (cbs : Callbacks) (u : String) (c : CB) :
    lookupCB (insertCB cbs u c) u = some c := by
  induction cbs with
  | nil => simp [insertCB, lookupCB]
  | cons p rest ih =>
    by_cases h : p.1 = u
    · simp [insertCB, h, lookupCB]
    · simp [insertCB, h, lookupCB, ih]

theorem lookupCB_insertCB_ne (cbs : Callbacks) (u v : String) (c : CB)
    (h : v ≠ u) : lookupCB (insertCB cbs u c) v = lookupCB cbs v := by
  induction cbs with
  | nil => simp [insertCB, lookupCB, Ne.symm h]
  | cons p rest ih =>
    by_cases hk : p.1 = u
    · subst hk
      have : ¬ p.1 = v := fun h2 => h (h2 ▸ rfl)
      simp [insertCB, lookupCB, this]
    · simp only [insertCB, if_neg hk, lookupCB]
      by_cases hv : p.1 = v
      · simp [hv]
      · simp [hv, ih]

theorem lookupCB_eraseCB_self (cbs : Callbacks) (u : String) :
    lookupCB (eraseCB cbs u) u = none := by
  induction cbs with
  | nil => simp [eraseCB, lookupCB]
  | cons p rest ih =>
    by_cases h : p.1 = u
    · simp [eraseCB, h, ih]
    · simp [eraseCB, h, lookupCB, ih]

theorem lookupCB_eraseCB_ne (cbs : Callbacks) (u v : String) (h : v ≠ u) :
    lookupCB (eraseCB cbs u) v = lookupCB cbs v := by
  induction cbs with
  | nil => simp [eraseCB]
  | cons p rest ih =>
    by_cases hk : p.1 = u
    · subst hk
      have : ¬ p.1 = v := fun h2 => h (h2 ▸ rfl)
      simp [eraseCB, lookupCB, this, ih]
    · simp only [eraseCB, if_neg hk, lookupCB]
      by_cases hv : p.1 = v
      · simp [hv]
      · simp [hv, ih]

theorem lookupCB_eraseCB_some (cbs : Callbacks) (u v : String) (c : CB)
    (h : lookupCB (eraseCB cbs u) v = some c) : lookupCB cbs v = some c := by
  by_cases hv : v = u
  · subst hv; rw [lookupCB_eraseCB_self] at h; exact absurd h (by simp)
  · rwa [lookupCB_eraseCB_ne cbs u v hv] at h

/-! Scenario equations for a single `_handle_js_events` call. -/

theorem handleJsEvents_no_uuid (cbs : Callbacks) (m : Msg)
    (hm : m.uuid = none) :
    handleJsEvents cbs m = (cbs, [Action.loggedError]) := by
  simp [handleJsEvents, handleBody, hm]

theorem handleJsEvents_unknown (cbs : Callbacks) (m : Msg) (u : String)
    (hm : m.uuid = some u) (hl : lookupCB cbs u = none) :
    handleJsEvents cbs m = (cbs, [Action.loggedError]) := by
  simp [handleJsEvents, handleBody, hm, hl]

theorem handleJsEvents_no_imgData (cbs : Callbacks) (m : Msg) (u : String)
    (cb : CB) (hm : m.uuid = some u) (hl : lookupCB cbs u = some cb)
    (hd : m.imgData = none) :
    handleJsEvents cbs m = (cbs, [Action.loggedError]) := by
  simp [handleJsEvents, handleBody, hm, hl, hd]

theorem handleJsEvents_raising (cbs : Callbacks) (m : Msg) (u d : String)
    (cb : CB) (hm : m.uuid = some u) (hl : lookupCB cbs u = some cb)
    (hd : m.imgData = some d) (hr : cb.raises = true) :
    handleJsEvents cbs m = (cbs, [Action.invoked u cb d, Action.loggedError]) := by
  simp [handleJsEvents, handleBody, hm, hl, hd, hr]

theorem handleJsEvents_normal (cbs : Callbacks) (m : Msg) (u d : String)
    (cb : CB) (hm : m.uuid = some u) (hl : lookupCB cbs u = some cb)
    (hd : m.imgData = some d) (hr : cb.raises = false) :
    handleJsEvents cbs m
      = (eraseCB cbs u, [Action.invoked u cb d, Action.deleted u]) := by
  simp [handleJsEvents, handleBody, hm, hl, hd, hr]

/-! Case analysis lemmas about a single `_handle_js_events` call, phrased over
an arbitrary inbound message. -/

theorem handleJsEvents_invoked_lookup (cbs : Callbacks) (m : Msg)
    (u : String) (c : CB) (d : String)
    (h : Action.invoked u c d ∈ (handleJsEvents cbs m).2) :
    lookupCB cbs u = some c ∧ m.uuid = some u ∧ m.imgData = some d := by
  cases hm : m.uuid with
  | none => rw [handleJsEvents_no_uuid cbs m hm] at h; simp at h
  | some u0 =>
    cases hl : lookupCB cbs u0 with
    | none => rw [handleJsEvents_unknown cbs m u0 hm hl] at h; simp at h
    | some cb =>
      cases hd : m.imgData with
      | none =>
        rw [handleJsEvents_no_imgData cbs m u0 cb hm hl hd] at h; simp at h
      | some d0 =>
        cases hr : cb.raises with
        | true =>
          rw [handleJsEvents_raising cbs m u0 d0 cb hm hl hd hr] at h
          simp only [List.mem_cons, List.not_mem_nil, or_false] at h
          rcases h with h | h
          · rcases Action.invoked.inj h with ⟨rfl, rfl, rfl⟩
            exact ⟨hl, rfl, rfl⟩
          · cases h
        | false =>
          rw [handleJsEvents_normal cbs m u0 d0 cb hm hl hd hr] at h
          simp only [List.mem_cons, List.not_mem_nil, or_false] at h
          rcases h with h | h
          · rcases Action.invoked.inj h with ⟨rfl, rfl, rfl⟩
            exact ⟨hl, rfl, rfl⟩
          · cases h

theorem handleJsEvents_lookup_some (cbs : Callbacks) (m : Msg)
    (u : String) (c : CB)
    (h : lookupCB (handleJsEvents cbs m).1 u = some c) :
    lookupCB cbs u = some c := by
  cases hm : m.uuid with
  | none => rw [handleJsEvents_no_uuid cbs m hm] at h; exact h
  | some u0 =>
    cases hl : lookupCB cbs u0 with
    | none => rw [handleJsEvents_unknown cbs m u0 hm hl] at h; exact h
    | some cb =>
      cases hd : m.imgData with
      | none =>
        rw [handleJsEvents_no_imgData cbs m u0 cb hm hl hd] at h; exact h
      | some d0 =>
        cases hr : cb.raises with
        | true => rw [handleJsEvents_raising cbs m u0 d0 cb hm hl hd hr] at h; exact h
        | false =>
          rw [handleJsEvents_normal cbs m u0 d0 cb hm hl hd hr] at h
          exact lookupCB_eraseCB_some cbs u0 u c h

/-! Claims about the correlation bridge. -/

/-- Claim C2, counterexample: for the pending entry `("u", cb)` and a matching
inbound message, the handler's action sequence is the invocation first and
the removal second — the entry is not removed from the pending map before the
stored callback is invoked (viewer.py lines 79-80 run the call before the
`del`). -/
theorem removal_not_before_invocation_cex :
    lookupCB [("u", CB.mk 0 false)] "u" = some (CB.mk 0 false) ∧
    (handleJsEvents [("u", CB.mk 0 false)] (Msg.mk (some "u") (some "img"))).2
      = [Action.invoked "u" (CB.mk 0 false) "img", Action.deleted "u"] ∧
    ¬ removalPrecedesInvocation
        (handleJsEvents [("u", CB.mk 0 false)] (Msg.mk (some "u") (some "img"))).2
        "u" := by decide

/-- Claim C2 (amended): for every inbound message whose uuid matches a pending
request whose callback returns normally, the bridge invokes the stored
callback with the message's `imgData` first and removes the entry from the
pending map immediately afterwards (so the entry is still pending while the
callback runs); after the handler returns, the entry is gone. -/
theorem entry_removed_after_callback (cbs : Callbacks) (u d : String) (c : CB)
    (h : lookupCB cbs u = some c) (hr : c.raises = false) :
    handleJsEvents cbs (Msg.mk (some u) (some d))
      = (eraseCB cbs u, [Action.invoked u c d, Action.deleted u]) ∧
    lookupCB (handleJsEvents cbs (Msg.mk (some u) (some d))).1 u = none ∧
    ¬ removalPrecedesInvocation
        (handleJsEvents cbs (Msg.mk (some u) (some d))).2 u := by
  have he : handleJsEvents cbs (Msg.mk (some u) (some d))
      = (eraseCB cbs u, [Action.invoked u c d, Action.deleted u]) :=
    handleJsEvents_normal cbs (Msg.mk (some u) (some d)) u d c rfl h rfl hr
  refine ⟨he, ?_, ?_⟩
  · rw [he]
    exact lookupCB_eraseCB_self cbs u
  · rw [he]
    rintro ⟨i, j, hij, hdel, hinv⟩
    fin_cases i <;> fin_cases j <;>
      simp_all [Action.isDeletedFor, Action.isInvokedFor]

/-- Witness for the amended claim C2 at a concrete pending entry. -/
theorem entry_removed_after_callback_witness :
    handleJsEvents [("u", CB.mk 7 false)] (Msg.mk (some "u") (some "img"))
      = (eraseCB [("u", CB.mk 7 false)] "u",
          [Action.invoked "u" (CB.mk 7 false) "img", Action.deleted "u"]) ∧
    lookupCB
        (handleJsEvents [("u", CB.mk 7 false)] (Msg.mk (some "u") (some "img"))).1
        "u" = none ∧
    ¬ removalPrecedesInvocation
        (handleJsEvents [("u", CB.mk 7 false)]
            (Msg.mk (some "u") (some "img"))).2 "u" :=
  entry_removed_after_callback [("u", CB.mk 7 false)] "u" "img" (CB.mk 7 false)
    (by decide) rfl

/-- Claim C6: if a reply callback raises, the exception is raised inside the
`try:` body, caught by the handler (which logs it and returns normally), and
a second, independently pending request with a different uuid is untouched —
a later reply for it is still delivered to its own callback. -/
theorem callback_exception_isolated (cbs : Callbacks) (u1 u2 d1 d2 : String)
    (c1 c2 : CB) (h1 : lookupCB cbs u1 = some c1) (hr1 : c1.raises = true)
    (h2 : lookupCB cbs u2 = some c2) (hr2 : c2.raises = false)
    (_hne : u2 ≠ u1) :
    handleBody cbs (Msg.mk (some u1) (some d1))
      = Except.error (cbs, [Action.invoked u1 c1 d1]) ∧
    handleJsEvents cbs (Msg.mk (some u1) (some d1))
      = (cbs, [Action.invoked u1 c1 d1, Action.loggedError]) ∧
    lookupCB (handleJsEvents cbs (Msg.mk (some u1) (some d1))).1 u2 = some c2 ∧
    (handleJsEvents (handleJsEvents cbs (Msg.mk (some u1) (some d1))).1
        (Msg.mk (some u2) (some d2))).2
      = [Action.invoked u2 c2 d2, Action.deleted u2] := by
  have he : handleJsEvents cbs (Msg.mk (some u1) (some d1))
      = (cbs, [Action.invoked u1 c1 d1, Action.loggedError]) :=
    handleJsEvents_raising cbs (Msg.mk (some u1) (some d1)) u1 d1 c1 rfl h1 rfl hr1
  refine ⟨?_, he, ?_, ?_⟩
  · simp [handleBody, h1, hr1]
  · rw [he]
    exact h2
  · rw [he]
    rw [handleJsEvents_normal cbs (Msg.mk (some u2) (some d2)) u2 d2 c2 rfl h2
      rfl hr2]

/-- Witness for claim C6 at two concrete pending entries. -/
theorem callback_exception_isolated_witness :
    handleBody [("a", CB.mk 1 true), ("b", CB.mk 2 false)]
        (Msg.mk (some "a") (some "x"))
      = Except.error ([("a", CB.mk 1 true), ("b", CB.mk 2 false)],
          [Action.invoked "a" (CB.mk 1 true) "x"]) ∧
    handleJsEvents [("a", CB.mk 1 true), ("b", CB.mk 2 false)]
        (Msg.mk (some "a") (some "x"))
      = ([("a", CB.mk 1 true), ("b", CB.mk 2 false)],
          [Action.invoked "a" (CB.mk 1 true) "x", Action.loggedError]) ∧
    lookupCB
        (handleJsEvents [("a", CB.mk 1 true), ("b", CB.mk 2 false)]
            (Msg.mk (some "a") (some "x"))).1 "b" = some (CB.mk 2 false) ∧
    (handleJsEvents
        (handleJsEvents [("a", CB.mk 1 true), ("b", CB.mk 2 false)]
            (Msg.mk (some "a") (some "x"))).1
        (Msg.mk (some "b") (some "y"))).2
      = [Action.invoked "b" (CB.mk 2 false) "y", Action.deleted "b"] :=
  callback_exception_isolated [("a", CB.mk 1 true), ("b", CB.mk 2 false)]
    "a" "b" "x" "y" (CB.mk 1 true) (CB.mk 2 false) (by decide) rfl (by decide)
    rfl (by decide)

/-- Claim C7: an inbound message whose uuid has no pending entry, or which
misses the correlation fields entirely, is dropped: the handler invokes no
callback, leaves the pending map unchanged, logs the `KeyError` internally and
returns normally (no error reaches the caller of `_handle_js_events`). -/
theorem unmatched_message_dropped (cbs : Callbacks) (m : Msg)
    (h : ∀ u, m.uuid = some u → lookupCB cbs u = none) :
    handleJsEvents cbs m = (cbs, [Action.loggedError]) ∧
    ∀ u c d, Action.invoked u c d ∉ (handleJsEvents cbs m).2 := by
  have he : handleJsEvents cbs m = (cbs, [Action.loggedError]) := by
    cases hm : m.uuid with
    | none => exact handleJsEvents_no_uuid cbs m hm
    | some u => exact handleJsEvents_unknown cbs m u hm (h u hm)
  refine ⟨he, ?_⟩
  rw [he]
  intro u c d hmem
  simp at hmem

/-- Witness for claim C7: a message with an unknown uuid and a message with
no correlation fields, both against a nonempty pending map. -/
theorem unmatched_message_dropped_witness :
    (handleJsEvents [("a", CB.mk 1 false)] (Msg.mk (some "z") (some "x"))
        = ([("a", CB.mk 1 false)], [Action.loggedError]) ∧
      ∀ u c d, Action.invoked u c d ∉
        (handleJsEvents [("a", CB.mk 1 false)] (Msg.mk (some "z") (some "x"))).2) ∧
    (handleJsEvents [("a", CB.mk 1 false)] (Msg.mk none (some "x"))
        = ([("a", CB.mk 1 false)], [Action.loggedError]) ∧
      ∀ u c d, Action.invoked u c d ∉
        (handleJsEvents [("a", CB.mk 1 false)] (Msg.mk none (some "x"))).2) :=
  ⟨unmatched_message_dropped [("a", CB.mk 1 false)] (Msg.mk (some "z") (some "x"))
      (by intro u hu; cases hu; decide),
    unmatched_message_dropped [("a", CB.mk 1 false)] (Msg.mk none (some "x"))
      (by intro u hu; cases hu)⟩

/-- Claim C9: if the stored callback raises when invoked, the handler's `del`
is skipped (the exception jumps to the `except` clause), the entry stays in
the pending map, and a subsequent message with the same uuid invokes the same
callback again. -/
theorem raising_callback_entry_retained (cbs : Callbacks) (u d d2 : String)
    (c : CB) (h : lookupCB cbs u = some c) (hr : c.raises = true) :
    handleJsEvents cbs (Msg.mk (some u) (some d))
      = (cbs, [Action.invoked u c d, Action.loggedError]) ∧
    lookupCB (handleJsEvents cbs (Msg.mk (some u) (some d))).1 u = some c ∧
    (handleJsEvents (handleJsEvents cbs (Msg.mk (some u) (some d))).1
        (Msg.mk (some u) (some d2))).2
      = [Action.invoked u c d2, Action.loggedError] := by
  have he : handleJsEvents cbs (Msg.mk (some u) (some d))
      = (cbs, [Action.invoked u c d, Action.loggedError]) :=
    handleJsEvents_raising cbs (Msg.mk (some u) (some d)) u d c rfl h rfl hr
  refine ⟨he, ?_, ?_⟩
  · rw [he]
    exact h
  · rw [he]
    rw [handleJsEvents_raising cbs (Msg.mk (some u) (some d2)) u d2 c rfl h
      rfl hr]

/-- Witness for claim C9 at a concrete raising callback. -/
theorem raising_callback_entry_retained_witness :
    handleJsEvents [("u", CB.mk 3 true)] (Msg.mk (some "u") (some "p1"))
      = ([("u", CB.mk 3 true)],
          [Action.invoked "u" (CB.mk 3 true) "p1", Action.loggedError]) ∧
    lookupCB
        (handleJsEvents [("u", CB.mk 3 true)] (Msg.mk (some "u") (some "p1"))).1
        "u" = some (CB.mk 3 true) ∧
    (handleJsEvents
        (handleJsEvents [("u", CB.mk 3 true)] (Msg.mk (some "u") (some "p1"))).1
        (Msg.mk (some "u") (some "p2"))).2
      = [Action.invoked "u" (CB.mk 3 true) "p2", Action.loggedError] :=
  raising_callback_entry_retained [("u", CB.mk 3 true)] "u" "p1" "p2"
    (CB.mk 3 true) (by decide) rfl

/-! Trace lemmas for the routing claim. -/

theorem runEvents_cons (cbs : Callbacks) (e : Event) (es : List Event) :
    runEvents cbs (e :: es)
      = ((runEvents (stepEvent cbs e).1 es).1,
          (stepEvent cbs e).2 ++ (runEvents (stepEvent cbs e).1 es).2) := rfl

theorem requestUuids_cons_request (u0 : String) (c : CB) (es : List Event) :
    requestUuids (Event.request u0 c :: es) = u0 :: requestUuids es := by
  simp [requestUuids]

theorem requestUuids_cons_deliver (m : Msg) (es : List Event) :
    requestUuids (Event.deliver m :: es) = requestUuids es := by
  simp [requestUuids]

theorem invCount_append (u : String) (a b : List Action) :
    invCount u (a ++ b) = invCount u a + invCount u b :=
  List.countP_append _ _ _

theorem invCount_pos_exists (u : String) (acts : List Action)
    (h : 0 < invCount u acts) : ∃ c d, Action.invoked u c d ∈ acts := by
  rcases List.countP_pos_iff.mp h with ⟨a, hmem, hp⟩
  cases a with
  | invoked u2 c d =>
    have : u2 = u := by simpa [Action.isInvokedFor] using hp
    subst this
    exact ⟨c, d, hmem⟩
  | deleted u2 => simp [Action.isInvokedFor] at hp
  | loggedError => simp [Action.isInvokedFor] at hp

theorem runEvents_invoked_issued (R : String → CB → Prop) (evs : List Event) :
    ∀ cbs : Callbacks,
      (∀ u c, lookupCB cbs u = some c → R u c) →
      (∀ u c, Event.request u c ∈ evs → R u c) →
      ∀ u c d, Action.invoked u c d ∈ (runEvents cbs evs).2 → R u c := by
  induction evs with
  | nil =>
    intro cbs h1 h2 u c d hmem
    simp [runEvents] at hmem
  | cons e es ih =>
    intro cbs h1 h2 u c d hmem
    rw [runEvents_cons] at hmem
    rcases List.mem_append.mp hmem with hmem | hmem
    · cases e with
      | request u0 c0 => simp [stepEvent, get_base64_img] at hmem
      | deliver m =>
        obtain ⟨hl, -, -⟩ := handleJsEvents_invoked_lookup cbs m u c d hmem
        exact h1 u c hl
    · cases e with
      | request u0 c0 =>
        refine ih (insertCB cbs u0 c0) ?_ ?_ u c d hmem
        · intro u2 c2 hl
          by_cases hu : u2 = u0
          · subst hu
            rw [lookupCB_insertCB_self] at hl
            have hc : c0 = c2 := by injection hl
            subst hc
            exact h2 u2 c0 (List.mem_cons_self _ _)
          · rw [lookupCB_insertCB_ne cbs u0 u2 c0 hu] at hl
            exact h1 u2 c2 hl
        · intro u2 c2 hm2
          exact h2 u2 c2 (List.mem_cons_of_mem _ hm2)
      | deliver m =>
        refine ih (handleJsEvents cbs m).1 ?_ ?_ u c d hmem
        · intro u2 c2 hl
          exact h1 u2 c2 (handleJsEvents_lookup_some cbs m u2 c2 hl)
        · intro u2 c2 hm2
          exact h2 u2 c2 (List.mem_cons_of_mem _ hm2)

theorem runEvents_invCount_le (u : String) (evs : List Event) :
    ∀ cbs : Callbacks,
      (∀ c, lookupCB cbs u = some c → c.raises = false) →
      (∀ c, Event.request u c ∈ evs → c.raises = false) →
      invCount u (runEvents cbs evs).2
        ≤ reqCount u evs + (if (lookupCB cbs u).isSome then 1 else 0) := by
  induction evs with
  | nil =>
    intro cbs h1 h2
    simp [runEvents, invCount, reqCount, requestUuids]
  | cons e es ih =>
    intro cbs h1 h2
    rw [runEvents_cons, invCount_append]
    cases e with
    | request u0 c0 =>
      have hs1 : (stepEvent cbs (Event.request u0 c0)).1
          = insertCB cbs u0 c0 := rfl
      have hs2 : (stepEvent cbs (Event.request u0 c0)).2
          = ([] : List Action) := rfl
      rw [hs1, hs2]
      have hi0 : invCount u ([] : List Action) = 0 := rfl
      rw [hi0]
      have hreq : reqCount u (Event.request u0 c0 :: es)
          = reqCount u es + (if u0 = u then 1 else 0) := by
        simp [reqCount, requestUuids_cons_request, List.count_cons]
      rw [hreq]
      have h2t : ∀ c, Event.request u c ∈ es → c.raises = false :=
        fun c hm => h2 c (List.mem_cons_of_mem _ hm)
      by_cases hu : u0 = u
      · subst hu
        have h1n : ∀ c, lookupCB (insertCB cbs u0 c0) u0 = some c →
            c.raises = false := by
          intro c hl
          rw [lookupCB_insertCB_self] at hl
          have hc : c0 = c := by injection hl
          subst hc
          exact h2 c0 (List.mem_cons_self _ _)
        have hih := ih (insertCB cbs u0 c0) h1n h2t
        have hpend : (if (lookupCB (insertCB cbs u0 c0) u0).isSome
            then (1 : Nat) else 0) = 1 := by
          rw [lookupCB_insertCB_self]
          simp
        rw [hpend] at hih
        have h11 : (if u0 = u0 then (1 : Nat) else 0) = 1 := by simp
        rw [h11]
        omega
      · have hne : u ≠ u0 := fun hh => hu hh.symm
        have h1n : ∀ c, lookupCB (insertCB cbs u0 c0) u = some c →
            c.raises = false := by
          intro c hl
          rw [lookupCB_insertCB_ne cbs u0 u c0 hne] at hl
          exact h1 c hl
        have hih := ih (insertCB cbs u0 c0) h1n h2t
        have hpend : (if (lookupCB (insertCB cbs u0 c0) u).isSome
              then (1 : Nat) else 0)
            = (if (lookupCB cbs u).isSome then (1 : Nat) else 0) := by
          rw [lookupCB_insertCB_ne cbs u0 u c0 hne]
        rw [hpend] at hih
        have h10 : (if u0 = u then (1 : Nat) else 0) = 0 := by simp [hu]
        rw [h10]
        omega
    | deliver m =>
      have hs1 : (stepEvent cbs (Event.deliver m)).1
          = (handleJsEvents cbs m).1 := rfl
      have hs2 : (stepEvent cbs (Event.deliver m)).2
          = (handleJsEvents cbs m).2 := rfl
      rw [hs1, hs2]
      have hreq : reqCount u (Event.deliver m :: es) = reqCount u es := by
        simp [reqCount, requestUuids_cons_deliver]
      rw [hreq]
      have h2t : ∀ c, Event.request u c ∈ es → c.raises = false :=
        fun c hm => h2 c (List.mem_cons_of_mem _ hm)
      by_cases hz : invCount u (handleJsEvents cbs m).2 = 0
      · have h1n : ∀ c, lookupCB (handleJsEvents cbs m).1 u = some c →
            c.raises = false :=
          fun c hl => h1 c (handleJsEvents_lookup_some cbs m u c hl)
        have hih := ih (handleJsEvents cbs m).1 h1n h2t
        have hmono : (if (lookupCB (handleJsEvents cbs m).1 u).isSome
              then (1 : Nat) else 0)
            ≤ (if (lookupCB cbs u).isSome then (1 : Nat) else 0) := by
          cases ho : lookupCB (handleJsEvents cbs m).1 u with
          | none => simp
          | some c =>
            have hs := handleJsEvents_lookup_some cbs m u c ho
            simp [hs]
        omega
      · have hpos : 0 < invCount u (handleJsEvents cbs m).2 :=
          Nat.pos_of_ne_zero hz
        obtain ⟨c, d, hmem⟩ := invCount_pos_exists u _ hpos
        obtain ⟨hl, hmu, hmd⟩ := handleJsEvents_invoked_lookup cbs m u c d hmem
        have hcf : c.raises = false := h1 c hl
        have heq : handleJsEvents cbs m
            = (eraseCB cbs u, [Action.invoked u c d, Action.deleted u]) :=
          handleJsEvents_normal cbs m u d c hmu hl hmd hcf
        have heq1 : (handleJsEvents cbs m).1 = eraseCB cbs u := by rw [heq]
        have heq2 : (handleJsEvents cbs m).2
            = [Action.invoked u c d, Action.deleted u] := by rw [heq]
        rw [heq1, heq2]
        have hacts : invCount u [Action.invoked u c d, Action.deleted u]
            = 1 := by
          simp [invCount, List.countP_cons, Action.isInvokedFor]
        rw [hacts]
        have h1n : ∀ c2, lookupCB (eraseCB cbs u) u = some c2 →
            c2.raises = false := by
          intro c2 hl2
          rw [lookupCB_eraseCB_self] at hl2
          cases hl2
        have hih := ih (eraseCB cbs u) h1n h2t
        have hpend0 : (if (lookupCB (eraseCB cbs u) u).isSome
            then (1 : Nat) else 0) = 0 := by
          rw [lookupCB_eraseCB_self]
          simp
        rw [hpend0] at hih
        have hpend1 : (if (lookupCB cbs u).isSome then (1 : Nat) else 0)
            = 1 := by
          rw [hl]
          simp
        rw [hpend1]
        omega

theorem request_mem_uuid (evs : List Event) (u : String) (c : CB)
    (h : Event.request u c ∈ evs) : u ∈ requestUuids evs := by
  induction evs with
  | nil => cases h
  | cons e es ih =>
    cases e with
    | request u0 c0 =>
      rw [requestUuids_cons_request]
      rcases List.mem_cons.mp h with he | hm
      · have e1 := Event.request.inj he
        rw [e1.1]
        exact List.mem_cons_self _ _
      · exact List.mem_cons_of_mem _ (ih hm)
    | deliver m =>
      rw [requestUuids_cons_deliver]
      rcases List.mem_cons.mp h with he | hm
      · exact Event.noConfusion he
      · exact ih hm

theorem nodup_request_unique (evs : List Event)
    (hnd : (requestUuids evs).Nodup) (u : String) (c c2 : CB)
    (h : Event.request u c ∈ evs) (h2 : Event.request u c2 ∈ evs) :
    c = c2 := by
  induction evs with
  | nil => cases h
  | cons e es ih =>
    cases e with
    | request u0 c0 =>
      rw [requestUuids_cons_request] at hnd
      have hnotin : u0 ∉ requestUuids es := (List.nodup_cons.mp hnd).1
      have hndt : (requestUuids es).Nodup := (List.nodup_cons.mp hnd).2
      rcases List.mem_cons.mp h with h | h <;>
        rcases List.mem_cons.mp h2 with h2 | h2
      · have e1 := Event.request.inj h.symm
        have e2 := Event.request.inj h2.symm
        rw [← e1.2, ← e2.2]
      · exfalso
        have e1 := Event.request.inj h.symm
        rw [← e1.1] at h2
        exact hnotin (request_mem_uuid es u0 c2 h2)
      · exfalso
        have e2 := Event.request.inj h2.symm
        rw [← e2.1] at h
        exact hnotin (request_mem_uuid es u0 c h)
      · exact ih hndt h h2
    | deliver m =>
      rw [requestUuids_cons_deliver] at hnd
      rcases List.mem_cons.mp h with h | h
      · cases h
      · rcases List.mem_cons.mp h2 with h2 | h2
        · cases h2
        · exact ih hnd h h2

/-- Claim C4 (amended): for every sequence of issued requests and inbound
deliveries in which request uuids are never reused (they are fresh random
slugids), a reply invocation for a uuid always runs exactly the callback that
was issued with that uuid; and the callback of a given uuid is invoked at
most once provided it does not raise. (When it raises, the entry survives and
a duplicate delivery re-invokes it — see the counterexample.) -/
theorem reply_routing_amended (evs : List Event)
    (hnd : (requestUuids evs).Nodup) :
    (∀ u c d, Action.invoked u c d ∈ runLog evs → Event.request u c ∈ evs) ∧
    (∀ u c c2 d d2, Action.invoked u c d ∈ runLog evs →
      Action.invoked u c2 d2 ∈ runLog evs → c = c2) ∧
    (∀ u c, Event.request u c ∈ evs → c.raises = false →
      invCount u (runLog evs) ≤ 1) := by
  have hissued : ∀ u c d, Action.invoked u c d ∈ runLog evs →
      Event.request u c ∈ evs := by
    intro u c d hmem
    exact runEvents_invoked_issued (fun u2 c2 => Event.request u2 c2 ∈ evs)
      evs [] (by intro u2 c2 hl; simp [lookupCB] at hl)
      (fun u2 c2 hm => hm) u c d hmem
  refine ⟨hissued, ?_, ?_⟩
  · intro u c c2 d d2 hm1 hm2
    exact nodup_request_unique evs hnd u c c2 (hissued u c d hm1)
      (hissued u c2 d2 hm2)
  · intro u c hreq hr
    have h2 : ∀ c2, Event.request u c2 ∈ evs → c2.raises = false := by
      intro c2 hc2
      rw [nodup_request_unique evs hnd u c2 c hc2 hreq]
      exact hr
    have hb := runEvents_invCount_le u evs []
      (by intro c2 hl; simp [lookupCB] at hl) h2
    have hc : reqCount u evs ≤ 1 := List.nodup_iff_count_le_one.mp hnd u
    simp only [lookupCB, Option.isSome_none, if_false] at hb
    calc invCount u (runLog evs) ≤ reqCount u evs + 0 := hb
      _ ≤ 1 := by omega

/-- Witness for the amended claim C4 on a concrete trace of two requests and
one delivery. -/
theorem reply_routing_amended_witness :
    (∀ u c d, Action.invoked u c d ∈ runLog
        [Event.request "a" (CB.mk 0 false), Event.request "b" (CB.mk 1 false),
          Event.deliver (Msg.mk (some "b") (some "d"))] →
      Event.request u c ∈
        [Event.request "a" (CB.mk 0 false), Event.request "b" (CB.mk 1 false),
          Event.deliver (Msg.mk (some "b") (some "d"))]) ∧
    (∀ u c c2 d d2, Action.invoked u c d ∈ runLog
        [Event.request "a" (CB.mk 0 false), Event.request "b" (CB.mk 1 false),
          Event.deliver (Msg.mk (some "b") (some "d"))] →
      Action.invoked u c2 d2 ∈ runLog
        [Event.request "a" (CB.mk 0 false), Event.request "b" (CB.mk 1 false),
          Event.deliver (Msg.mk (some "b") (some "d"))] → c = c2) ∧
    (∀ u c, Event.request u c ∈
        [Event.request "a" (CB.mk 0 false), Event.request "b" (CB.mk 1 false),
          Event.deliver (Msg.mk (some "b") (some "d"))] →
      c.raises = false →
      invCount u (runLog
        [Event.request "a" (CB.mk 0 false), Event.request "b" (CB.mk 1 false),
          Event.deliver (Msg.mk (some "b") (some "d"))]) ≤ 1) :=
  reply_routing_amended
    [Event.request "a" (CB.mk 0 false), Event.request "b" (CB.mk 1 false),
      Event.deliver (Msg.mk (some "b") (some "d"))] (by decide)

/-- Claim C4, counterexample: a request whose callback raises, followed by two
deliveries of the same uuid, invokes that callback twice — "at most once per
id" fails when a callback raises and the reply is delivered again (the `del`
is skipped on the exception path, so the entry stays pending). -/
theorem raising_callback_reinvoked_cex :
    invCount "u"
        (runLog
          [Event.request "u" (CB.mk 0 true),
            Event.deliver (Msg.mk (some "u") (some "d")),
            Event.deliver (Msg.mk (some "u") (some "d"))]) = 2 ∧
    ¬ invCount "u"
        (runLog
          [Event.request "u" (CB.mk 0 true),
            Event.deliver (Msg.mk (some "u") (some "d")),
            Event.deliver (Msg.mk (some "u") (some "d"))]) ≤ 1 := by decide

/-! Lemmas about configuration dicts, the guarded server assignment, and the
rewriting loop. -/

theorem clookup_cinsert_self (c : Conf) (k : String) (v : Option String) :
    clookup (cinsert c k v) k = some v := by
  induction c with
  | nil => simp [cinsert, clookup]
  | cons p rest ih =>
    by_cases h : p.1 = k
    · simp [cinsert, h, clookup]
    · simp [cinsert, h, clookup, ih]

theorem hset_self (h : Heap) (i : Nat) (c : Conf) : hset h i c i = c := by
  simp [hset]

theorem hset_other (h : Heap) (i j : Nat) (c : Conf) (hne : j ≠ i) :
    hset h i c j = h j := by
  simp [hset, hne]

theorem setServer_other (h : Heap) (cid : Nat) (a : String) (i : Nat)
    (hne : i ≠ cid) : setServer h cid a i = h i := by
  unfold setServer
  cases clookup (h cid) "server" with
  | none => exact hset_other h cid i _ hne
  | some v =>
    cases v with
    | none => exact hset_other h cid i _ hne
    | some s => rfl

theorem setServer_of_present (h : Heap) (cid : Nat) (a : String) (s : String)
    (hp : clookup (h cid) "server" = some (some s)) :
    setServer h cid a = h := by
  unfold setServer
  rw [hp]

theorem setServer_of_unset (h : Heap) (cid : Nat) (a : String)
    (hu : serverUnset (h cid)) :
    clookup (setServer h cid a cid) "server" = some (some a) := by
  unfold setServer
  rcases hu with hu | hu
  · rw [hu]
    show clookup (hset h cid (cinsert (h cid) "server" (some a)) cid) "server"
        = some (some a)
    rw [hset_self, clookup_cinsert_self]
  · rw [hu]
    show clookup (hset h cid (cinsert (h cid) "server" (some a)) cid) "server"
        = some (some a)
    rw [hset_self, clookup_cinsert_self]

theorem setServerFold_cons (h : Heap) (a : String) (cid : Nat)
    (L : List Nat) :
    setServerFold h a (cid :: L) = setServerFold (setServer h cid a) a L := rfl

theorem setServerFold_not_mem (a : String) (L : List Nat) (i : Nat) :
    ∀ h : Heap, i ∉ L → setServerFold h a L i = h i := by
  induction L with
  | nil => intro h _; rfl
  | cons cid L ih =>
    intro h hn
    rw [setServerFold_cons]
    rw [ih _ (fun hm => hn (List.mem_cons_of_mem _ hm))]
    exact setServer_other h cid a i
      (fun he => hn (he ▸ List.mem_cons_self _ _))

theorem setServerFold_preserve (a : String) (L : List Nat) (i : Nat)
    (s : String) :
    ∀ h : Heap, clookup (h i) "server" = some (some s) →
      clookup (setServerFold h a L i) "server" = some (some s) := by
  induction L with
  | nil => intro h hp; exact hp
  | cons cid L ih =>
    intro h hp
    rw [setServerFold_cons]
    apply ih
    by_cases he : i = cid
    · subst he
      rw [setServer_of_present h i a s hp]
      exact hp
    · rw [setServer_other h cid a i he]
      exact hp

theorem setServerFold_unchanged_or (a : String) (L : List Nat) (i : Nat) :
    ∀ h : Heap,
      clookup (setServerFold h a L i) "server" = clookup (h i) "server" ∨
        (serverUnset (h i) ∧
          clookup (setServerFold h a L i) "server" = some (some a)) := by
  induction L with
  | nil => intro h; left; rfl
  | cons cid L ih =>
    intro h
    rw [setServerFold_cons]
    by_cases he : i = cid
    · subst he
      cases hl : clookup (h i) "server" with
      | none =>
        right
        refine ⟨Or.inl hl, ?_⟩
        have h2 : clookup (setServer h i a i) "server" = some (some a) :=
          setServer_of_unset h i a (Or.inl hl)
        rcases ih (setServer h i a) with h3 | h3
        · rw [h3, h2]
        · exact h3.2
      | some v =>
        cases v with
        | none =>
          right
          refine ⟨Or.inr hl, ?_⟩
          have h2 : clookup (setServer h i a i) "server" = some (some a) :=
            setServer_of_unset h i a (Or.inr hl)
          rcases ih (setServer h i a) with h3 | h3
          · rw [h3, h2]
          · exact h3.2
        | some s =>
          rw [setServer_of_present h i a s hl]
          rcases ih h with h3 | h3
          · left
            rw [hl] at h3
            exact h3
          · exfalso
            rcases h3.1 with hu | hu <;> rw [hl] at hu <;> cases hu
    · have hstep : setServer h cid a i = h i := setServer_other h cid a i he
      rcases ih (setServer h cid a) with h3 | h3
      · left
        rw [h3, hstep]
      · right
        rw [hstep] at h3
        exact h3

theorem setServerFold_mem (a : String) (L : List Nat) (i : Nat) :
    ∀ h : Heap, i ∈ L →
      (serverUnset (h i) ∨ clookup (h i) "server" = some (some a)) →
      clookup (setServerFold h a L i) "server" = some (some a) := by
  induction L with
  | nil => intro h hm; cases hm
  | cons cid L ih =>
    intro h hm hpre
    rw [setServerFold_cons]
    by_cases he : i = cid
    · subst he
      have hstep : clookup (setServer h i a i) "server" = some (some a) := by
        rcases hpre with hu | hp
        · exact setServer_of_unset h i a hu
        · rw [setServer_of_present h i a a hp]
          exact hp
      exact setServerFold_preserve a L i a (setServer h i a) hstep
    · have hm2 : i ∈ L := by
        rcases List.mem_cons.mp hm with h0 | h0
        · exact absurd h0 he
        · exact h0
      have hstep : setServer h cid a i = h i := setServer_other h cid a i he
      apply ih (setServer h cid a) hm2
      rw [hstep]
      exact hpre

theorem setServerFold_append (h : Heap) (a : String) (L1 L2 : List Nat) :
    setServerFold h a (L1 ++ L2)
      = setServerFold (setServerFold h a L1) a L2 := by
  unfold setServerFold
  rw [List.foldl_append]

theorem rewriteTrack_eq (a : String) (h : Heap) (t : Track) :
    rewriteTrack a h t = setServerFold h a t.serverTargets := by
  cases t with
  | leaf cid ts => rfl
  | combined cid children =>
    unfold rewriteTrack Track.serverTargets setServerFold
    rw [List.foldl_map]

theorem rewriteTracks_eq (a : String) (ts : List Track) :
    ∀ h : Heap, ts.foldl (rewriteTrack a) h
      = setServerFold h a (ts.flatMap Track.serverTargets) := by
  induction ts with
  | nil => intro h; rfl
  | cons t ts ih =>
    intro h
    rw [List.foldl_cons, ih, List.flatMap_cons, setServerFold_append,
      rewriteTrack_eq]

theorem rewriteViews_eq (a : String) (vs : List View) :
    ∀ h : Heap, rewriteViews h a vs
      = setServerFold h a (serverTargetsViews vs) := by
  induction vs with
  | nil => intro h; rfl
  | cons v vs ih =>
    intro h
    unfold rewriteViews serverTargetsViews
    rw [List.foldl_cons, List.flatMap_cons, setServerFold_append]
    have hv : rewriteView a h v
        = setServerFold h a (v.tracks.flatMap Track.serverTargets) :=
      rewriteTracks_eq a v.tracks h
    rw [hv]
    exact ih (setServerFold h a (v.tracks.flatMap Track.serverTargets))

/-! Lemmas about the deep clone: allocated cells start at `next`, and cells
below `next` keep their contents. -/

theorem cloneTracks_next_le : ∀ (h : Heap) (next : Nat) (ts : List Track),
    next ≤ (cloneTracks h next ts).2.2 := by
  intro h next ts
  induction h, next, ts using cloneTracks.induct with
  | case1 h next => simp [cloneTracks]
  | case2 h next cid ts0 rest ih =>
    simp only [cloneTracks]
    exact le_trans (Nat.le_succ next) ih
  | case3 h next cid children rest rc ih1 ih2 =>
    simp only [cloneTracks]
    exact le_trans (Nat.le_succ next) (le_trans ih1 ih2)

theorem cloneTracks_frame : ∀ (h : Heap) (next : Nat) (ts : List Track),
    ∀ i, i < next → (cloneTracks h next ts).2.1 i = h i := by
  intro h next ts
  induction h, next, ts using cloneTracks.induct with
  | case1 h next => intro i hi; simp [cloneTracks]
  | case2 h next cid ts0 rest ih =>
    intro i hi
    simp only [cloneTracks]
    exact (ih i (Nat.lt_succ_of_lt hi)).trans
      (hset_other h next i (h cid) (Nat.ne_of_lt hi))
  | case3 h next cid children rest rc ih1 ih2 =>
    intro i hi
    simp only [cloneTracks]
    have hle : next + 1 ≤ rc.2.2 := cloneTracks_next_le _ _ _
    exact ((ih2 i (lt_of_lt_of_le (Nat.lt_succ_of_lt hi) hle)).trans
      (ih1 i (Nat.lt_succ_of_lt hi))).trans
      (hset_other h next i (h cid) (Nat.ne_of_lt hi))

theorem cloneTracks_ids_ge : ∀ (h : Heap) (next : Nat) (ts : List Track),
    ∀ i, i ∈ confIdsT (cloneTracks h next ts).1 → next ≤ i := by
  intro h next ts
  induction h, next, ts using cloneTracks.induct with
  | case1 h next =>
    intro i hi
    simp [cloneTracks, confIdsT] at hi
  | case2 h next cid ts0 rest ih =>
    intro i hi
    simp only [cloneTracks, confIdsT, List.mem_cons] at hi
    rcases hi with hi | hi
    · exact le_of_eq hi.symm
    · exact le_trans (Nat.le_succ next) (ih i hi)
  | case3 h next cid children rest rc ih1 ih2 =>
    intro i hi
    simp only [cloneTracks, confIdsT, List.mem_cons, List.mem_append] at hi
    rcases hi with hi | hi | hi
    · exact le_of_eq hi.symm
    · exact le_trans (Nat.le_succ next) (ih1 i hi)
    · have hle : next + 1 ≤ rc.2.2 := cloneTracks_next_le _ _ _
      exact le_trans (Nat.le_succ next) (le_trans hle (ih2 i hi))

theorem cloneViews_next_le : ∀ (vs : List View) (h : Heap) (next : Nat),
    next ≤ (cloneViews h next vs).2.2 := by
  intro vs
  induction vs with
  | nil => intro h next; exact Nat.le_refl next
  | cons v vs ih =>
    intro h next
    simp only [cloneViews]
    exact le_trans (cloneTracks_next_le h next v.tracks) (ih _ _)

theorem cloneViews_frame : ∀ (vs : List View) (h : Heap) (next : Nat),
    ∀ i, i < next → (cloneViews h next vs).2.1 i = h i := by
  intro vs
  induction vs with
  | nil => intro h next i hi; rfl
  | cons v vs ih =>
    intro h next i hi
    simp only [cloneViews]
    have h2 := ih (cloneTracks h next v.tracks).2.1
      (cloneTracks h next v.tracks).2.2 i
      (lt_of_lt_of_le hi (cloneTracks_next_le h next v.tracks))
    exact h2.trans (cloneTracks_frame h next v.tracks i hi)

theorem cloneViews_ids_ge : ∀ (vs : List View) (h : Heap) (next : Nat),
    ∀ i, i ∈ viewsConfIds (cloneViews h next vs).1 → next ≤ i := by
  intro vs
  induction vs with
  | nil =>
    intro h next i hi
    simp [cloneViews, viewsConfIds] at hi
  | cons v vs ih =>
    intro h next i hi
    simp only [cloneViews, viewsConfIds, List.flatMap_cons,
      List.mem_append] at hi
    rcases hi with hi | hi
    · exact cloneTracks_ids_ge h next v.tracks i hi
    · exact le_trans (cloneTracks_next_le h next v.tracks)
        (ih _ _ i hi)

/-! Membership lemmas: the rewriting loop only ever assigns through
configuration cells reachable from the views it runs over. -/

theorem confId_mem_confIdsT : ∀ (ts : List Track) (t : Track), t ∈ ts →
    Track.confId t ∈ confIdsT ts := by
  intro ts
  induction ts with
  | nil => intro t ht; cases ht
  | cons t0 rest ih =>
    intro t ht
    rcases List.mem_cons.mp ht with h0 | h0
    · subst h0
      cases t with
      | leaf cid ts2 => simp [confIdsT, Track.confId]
      | combined cid ch => simp [confIdsT, Track.confId]
    · cases t0 with
      | leaf cid ts2 =>
        simp only [confIdsT]
        exact List.mem_cons_of_mem _ (ih t h0)
      | combined cid ch =>
        simp only [confIdsT]
        exact List.mem_cons_of_mem _
          (List.mem_append.mpr (Or.inr (ih t h0)))

theorem serverTargets_mem_confIdsT : ∀ (ts : List Track) (t : Track)
    (i : Nat), t ∈ ts → i ∈ t.serverTargets → i ∈ confIdsT ts := by
  intro ts
  induction ts with
  | nil => intro t i ht; cases ht
  | cons t0 rest ih =>
    intro t i ht hi
    rcases List.mem_cons.mp ht with h0 | h0
    · subst h0
      cases t with
      | leaf cid ts2 =>
        simp only [Track.serverTargets, List.mem_singleton] at hi
        subst hi
        simp [confIdsT]
      | combined cid ch =>
        simp only [Track.serverTargets, List.mem_map] at hi
        rcases hi with ⟨c2, hc2, rfl⟩
        simp only [confIdsT]
        exact List.mem_cons_of_mem _
          (List.mem_append.mpr (Or.inl (confId_mem_confIdsT ch c2 hc2)))
    · cases t0 with
      | leaf cid ts2 =>
        simp only [confIdsT]
        exact List.mem_cons_of_mem _ (ih t i h0 hi)
      | combined cid ch =>
        simp only [confIdsT]
        exact List.mem_cons_of_mem _
          (List.mem_append.mpr (Or.inr (ih t i h0 hi)))

theorem serverTargetsViews_subset (vs : List View) (i : Nat)
    (hi : i ∈ serverTargetsViews vs) : i ∈ viewsConfIds vs := by
  unfold serverTargetsViews at hi
  rcases List.mem_flatMap.mp hi with ⟨v, hv, hi2⟩
  rcases List.mem_flatMap.mp hi2 with ⟨t, ht, hi3⟩
  unfold viewsConfIds
  exact List.mem_flatMap.mpr
    ⟨v, hv, serverTargets_mem_confIdsT v.tracks t i ht hi3⟩

theorem displayCompose_cloned (h : Heap) (next : Nat) (a : String)
    (vs : List View) :
    (displayCompose h next a vs).2.1 = (cloneViews h next vs).1 := rfl

theorem displayCompose_heap (h : Heap) (next : Nat) (a : String)
    (vs : List View) :
    (displayCompose h next a vs).2.2
      = rewriteViews (cloneViews h next vs).2.1 a (cloneViews h next vs).1 :=
  rfl

/-! Claims about the composition engine. -/

/-- Claim C1: composition never mutates a configuration cell reachable from
the caller's views — the server rewriting happens on the deep clone, whose
cells are freshly allocated and therefore disjoint from every cell of the
originals, so writing to any clone cell leaves every original cell unchanged
and vice versa. (The clone itself is modelled from the spec, since
`View.from_dict`/`to_dict` live in `higlass/client.py`, outside the
sources.) -/
theorem display_does_not_mutate_originals (h : Heap) (next : Nat)
    (a : String) (vs : List View)
    (hwf : ∀ i, i ∈ viewsConfIds vs → i < next) :
    (∀ i, i ∈ viewsConfIds vs → (displayCompose h next a vs).2.2 i = h i) ∧
    (∀ i, i ∈ viewsConfIds vs →
      ∀ j, j ∈ viewsConfIds (displayCompose h next a vs).2.1 → i ≠ j) ∧
    (∀ j, j ∈ viewsConfIds (displayCompose h next a vs).2.1 → ∀ c : Conf,
      ∀ i, i ∈ viewsConfIds vs →
        hset (displayCompose h next a vs).2.2 j c i = h i) ∧
    (∀ i, i ∈ viewsConfIds vs → ∀ c : Conf,
      ∀ j, j ∈ viewsConfIds (displayCompose h next a vs).2.1 →
        hset (displayCompose h next a vs).2.2 i c j
          = (displayCompose h next a vs).2.2 j) := by
  have hdisj : ∀ i, i ∈ viewsConfIds vs →
      ∀ j, j ∈ viewsConfIds (displayCompose h next a vs).2.1 → i ≠ j := by
    intro i hi j hj
    rw [displayCompose_cloned] at hj
    have h1 : next ≤ j := cloneViews_ids_ge vs h next j hj
    have h2 : i < next := hwf i hi
    omega
  have hkeep : ∀ i, i ∈ viewsConfIds vs →
      (displayCompose h next a vs).2.2 i = h i := by
    intro i hi
    rw [displayCompose_heap]
    have hlt : i < next := hwf i hi
    have hnot : i ∉ serverTargetsViews (cloneViews h next vs).1 := by
      intro hmem
      have := cloneViews_ids_ge vs h next i
        (serverTargetsViews_subset _ i hmem)
      omega
    rw [rewriteViews_eq]
    rw [setServerFold_not_mem a _ i _ hnot]
    exact cloneViews_frame vs h next i hlt
  refine ⟨hkeep, hdisj, ?_, ?_⟩
  · intro j hj c i hi
    rw [hset_other _ j i c (hdisj i hi j hj)]
    exact hkeep i hi
  · intro i hi c j hj
    exact hset_other _ i j c (Ne.symm (hdisj i hi j hj))

/-- Witness for claim C1 on a concrete heap and view list (a leaf track and
a composite with one child, cells 0, 1, 2, clone cells allocated from 3). -/
theorem display_does_not_mutate_originals_witness :
    (∀ i, i ∈ viewsConfIds
        [View.mk [Track.leaf 0 (some "T1"), Track.combined 1 [Track.leaf 2 none]]] →
      (displayCompose (fun _ => []) 3 "addr"
        [View.mk [Track.leaf 0 (some "T1"),
          Track.combined 1 [Track.leaf 2 none]]]).2.2 i = (fun _ => ([] : Conf)) i) ∧
    (∀ i, i ∈ viewsConfIds
        [View.mk [Track.leaf 0 (some "T1"), Track.combined 1 [Track.leaf 2 none]]] →
      ∀ j, j ∈ viewsConfIds (displayCompose (fun _ => []) 3 "addr"
        [View.mk [Track.leaf 0 (some "T1"),
          Track.combined 1 [Track.leaf 2 none]]]).2.1 → i ≠ j) ∧
    (∀ j, j ∈ viewsConfIds (displayCompose (fun _ => []) 3 "addr"
        [View.mk [Track.leaf 0 (some "T1"),
          Track.combined 1 [Track.leaf 2 none]]]).2.1 → ∀ c : Conf,
      ∀ i, i ∈ viewsConfIds
        [View.mk [Track.leaf 0 (some "T1"), Track.combined 1 [Track.leaf 2 none]]] →
        hset (displayCompose (fun _ => []) 3 "addr"
          [View.mk [Track.leaf 0 (some "T1"),
            Track.combined 1 [Track.leaf 2 none]]]).2.2 j c i
          = (fun _ => ([] : Conf)) i) ∧
    (∀ i, i ∈ viewsConfIds
        [View.mk [Track.leaf 0 (some "T1"), Track.combined 1 [Track.leaf 2 none]]] →
      ∀ c : Conf,
      ∀ j, j ∈ viewsConfIds (displayCompose (fun _ => []) 3 "addr"
        [View.mk [Track.leaf 0 (some "T1"),
          Track.combined 1 [Track.leaf 2 none]]]).2.1 →
        hset (displayCompose (fun _ => []) 3 "addr"
          [View.mk [Track.leaf 0 (some "T1"),
            Track.combined 1 [Track.leaf 2 none]]]).2.2 i c j
          = (displayCompose (fun _ => []) 3 "addr"
            [View.mk [Track.leaf 0 (some "T1"),
              Track.combined 1 [Track.leaf 2 none]]]).2.2 j) :=
  display_does_not_mutate_originals (fun _ => []) 3 "addr"
    [View.mk [Track.leaf 0 (some "T1"), Track.combined 1 [Track.leaf 2 none]]]
    (by
      intro i hi
      simp [viewsConfIds, confIdsT] at hi
      omega)

/-- Claim C3: the rewriting pass sets a configuration's `server` field only
when that field is absent or explicitly `None`; any configuration that
already carries a `server` value — the empty string included — keeps that
exact value. -/
theorem server_never_overwritten (h : Heap) (a : String) (vs : List View)
    (i : Nat) :
    (∀ s, clookup (h i) "server" = some (some s) →
      clookup (rewriteViews h a vs i) "server" = some (some s)) ∧
    (clookup (rewriteViews h a vs i) "server" ≠ clookup (h i) "server" →
      serverUnset (h i) ∧
      clookup (rewriteViews h a vs i) "server" = some (some a)) := by
  constructor
  · intro s hp
    rw [rewriteViews_eq]
    exact setServerFold_preserve a _ i s h hp
  · intro hne
    rw [rewriteViews_eq] at hne ⊢
    rcases setServerFold_unchanged_or a (serverTargetsViews vs) i h with
      h3 | h3
    · exact absurd h3 hne
    · exact h3

/-- Witness for claim C3: a track whose configuration carries the empty
string as `server` keeps it through the rewrite. -/
theorem server_never_overwritten_witness :
    clookup ((fun i => if i = 0 then [("server", some "")] else ([] : Conf)) 0)
        "server" = some (some "") ∧
    clookup (rewriteViews
        (fun i => if i = 0 then [("server", some "")] else ([] : Conf))
        "addr" [View.mk [Track.leaf 0 (some "T")]] 0) "server"
      = some (some "") :=
  ⟨by decide,
    (server_never_overwritten
      (fun i => if i = 0 then [("server", some "")] else ([] : Conf))
      "addr" [View.mk [Track.leaf 0 (some "T")]] 0).1 "" (by decide)⟩

/-- Claim C10: the rewriting loop assigns the backend address to every
top-level non-composite track and every immediate child of a composite track
whose configuration has no `server` key or has it set to `None` — regardless
of whether the track carries a tileset reference. -/
theorem unset_tracks_get_address (h : Heap) (a : String) (vs : List View)
    (v : View) (t : Track) (hv : v ∈ vs) (ht : t ∈ v.tracks) :
    (∀ cid ts, t = Track.leaf cid ts → serverUnset (h cid) →
      clookup (rewriteViews h a vs cid) "server" = some (some a)) ∧
    (∀ cid children, t = Track.combined cid children →
      ∀ c2, c2 ∈ children → serverUnset (h c2.confId) →
      clookup (rewriteViews h a vs c2.confId) "server" = some (some a)) := by
  have hmem : ∀ i, i ∈ t.serverTargets → i ∈ serverTargetsViews vs := by
    intro i hi
    unfold serverTargetsViews
    exact List.mem_flatMap.mpr ⟨v, hv, List.mem_flatMap.mpr ⟨t, ht, hi⟩⟩
  constructor
  · intro cid ts hteq hu
    subst hteq
    rw [rewriteViews_eq]
    exact setServerFold_mem a _ cid h
      (hmem cid (by simp [Track.serverTargets])) (Or.inl hu)
  · intro cid children hteq c2 hc2 hu
    subst hteq
    rw [rewriteViews_eq]
    exact setServerFold_mem a _ c2.confId h
      (hmem c2.confId
        (by
          simp only [Track.serverTargets, List.mem_map]
          exact ⟨c2, hc2, rfl⟩))
      (Or.inl hu)

/-- Witness for claim C10: a tilesetless leaf track with no `server` key
ends with the backend address, and so does the child of a composite whose
`server` is `None`. -/
theorem unset_tracks_get_address_witness :
    clookup (rewriteViews
        (fun i => if i = 1 then [("server", none)] else ([] : Conf)) "addr"
        [View.mk [Track.leaf 0 none, Track.combined 2 [Track.leaf 1 none]]] 0)
      "server" = some (some "addr") ∧
    clookup (rewriteViews
        (fun i => if i = 1 then [("server", none)] else ([] : Conf)) "addr"
        [View.mk [Track.leaf 0 none, Track.combined 2 [Track.leaf 1 none]]] 1)
      "server" = some (some "addr") :=
  ⟨(unset_tracks_get_address
      (fun i => if i = 1 then [("server", none)] else ([] : Conf)) "addr"
      [View.mk [Track.leaf 0 none, Track.combined 2 [Track.leaf 1 none]]]
      (View.mk [Track.leaf 0 none, Track.combined 2 [Track.leaf 1 none]])
      (Track.leaf 0 none) (List.mem_cons_self _ _)
      (List.mem_cons_self _ _)).1 0 none rfl (Or.inl (by decide)),
    (unset_tracks_get_address
      (fun i => if i = 1 then [("server", none)] else ([] : Conf)) "addr"
      [View.mk [Track.leaf 0 none, Track.combined 2 [Track.leaf 1 none]]]
      (View.mk [Track.leaf 0 none, Track.combined 2 [Track.leaf 1 none]])
      (Track.combined 2 [Track.leaf 1 none]) (List.mem_cons_self _ _)
      (List.mem_cons_of_mem _ (List.mem_cons_self _ _))).2 2
      [Track.leaf 1 none] rfl (Track.leaf 1 none) (List.mem_cons_self _ _)
      (Or.inr (by decide))⟩

/-! Claims about tileset extraction. -/

theorem filterMap_tileset_length : ∀ l : List Track,
    (l.filterMap Track.tilesetOf).length
      = l.countP (fun t => (Track.tilesetOf t).isSome) := by
  intro l
  induction l with
  | nil => rfl
  | cons t rest ih =>
    cases hts : Track.tilesetOf t with
    | none => simp [List.filterMap_cons, hts, List.countP_cons, ih]
    | some s => simp [List.filterMap_cons, hts, List.countP_cons, ih]

/-- Claim C5, counterexample: a composite track whose only tileset-bearing
descendant sits two levels deep (inside a nested composite) has one such
descendant, yet the extraction loop collects nothing from it — the loop
visits only the immediate children of a composite and never recurses
deeper. -/
theorem extract_misses_deep_descendants_cex :
    deepTilesets
        [Track.combined 0 [Track.combined 1 [Track.leaf 2 (some "T1")]]]
      = ["T1"] ∧
    (deepTilesets
        [Track.combined 0 [Track.combined 1 [Track.leaf 2 (some "T1")]]]).length
      = 1 ∧
    extractTrack
        (Track.combined 0 [Track.combined 1 [Track.leaf 2 (some "T1")]])
      = [] ∧
    extractTilesets
        [View.mk [Track.combined 0 [Track.combined 1 [Track.leaf 2 (some "T1")]]]]
      = [] := by
  refine ⟨?_, ?_, ?_, ?_⟩
  · simp [deepTilesets]
  · simp [deepTilesets]
  · decide
  · decide

/-- Claim C5 (amended): tileset extraction walks composite tracks one level
deep only: a composite track contributes exactly the tileset references of
its immediate tileset-bearing children — in their original order, duplicates
preserved, N references for N immediate tileset-bearing children — and
contributes zero when no immediate child carries one. Deeper descendants are
never visited, and extraction has no side effects (it is a pure read). -/
theorem extract_collects_immediate_children (cid : Nat)
    (children : List Track) :
    extractTrack (Track.combined cid children)
      = children.filterMap Track.tilesetOf ∧
    (extractTrack (Track.combined cid children)).length
      = children.countP (fun t => (Track.tilesetOf t).isSome) ∧
    ((∀ t, t ∈ children → Track.tilesetOf t = none) →
      extractTrack (Track.combined cid children) = []) := by
  have he : extractTrack (Track.combined cid children)
      = children.filterMap Track.tilesetOf := by
    simp [extractTrack, Track.tilesetOf]
  refine ⟨he, ?_, ?_⟩
  · rw [he]
    exact filterMap_tileset_length children
  · intro hz
    rw [he]
    exact List.filterMap_eq_nil_iff.mpr hz

/-- Witness for the amended claim C5 on a composite with two
tileset-bearing immediate children (a duplicate reference among them), a
nested composite child and a tilesetless child. -/
theorem extract_collects_immediate_children_witness :
    (extractTrack (Track.combined 0
        [Track.leaf 1 (some "T1"), Track.combined 2 [Track.leaf 3 (some "TX")],
          Track.leaf 4 none, Track.leaf 5 (some "T1")])
      = [Track.leaf 1 (some "T1"),
          Track.combined 2 [Track.leaf 3 (some "TX")], Track.leaf 4 none,
          Track.leaf 5 (some "T1")].filterMap Track.tilesetOf ∧
    (extractTrack (Track.combined 0
        [Track.leaf 1 (some "T1"), Track.combined 2 [Track.leaf 3 (some "TX")],
          Track.leaf 4 none, Track.leaf 5 (some "T1")])).length
      = [Track.leaf 1 (some "T1"),
          Track.combined 2 [Track.leaf 3 (some "TX")], Track.leaf 4 none,
          Track.leaf 5 (some "T1")].countP
            (fun t => (Track.tilesetOf t).isSome) ∧
    ((∀ t, t ∈ [Track.leaf 1 (some "T1"),
        Track.combined 2 [Track.leaf 3 (some "TX")], Track.leaf 4 none,
        Track.leaf 5 (some "T1")] → Track.tilesetOf t = none) →
      extractTrack (Track.combined 0
        [Track.leaf 1 (some "T1"), Track.combined 2 [Track.leaf 3 (some "TX")],
          Track.leaf 4 none, Track.leaf 5 (some "T1")]) = [])) ∧
    extractTrack (Track.combined 0
        [Track.leaf 1 (some "T1"), Track.combined 2 [Track.leaf 3 (some "TX")],
          Track.leaf 4 none, Track.leaf 5 (some "T1")])
      = ["T1", "T1"] :=
  ⟨extract_collects_immediate_children 0
      [Track.leaf 1 (some "T1"), Track.combined 2 [Track.leaf 3 (some "TX")],
        Track.leaf 4 none, Track.leaf 5 (some "T1")],
    by decide⟩

/-! Claims about the image artifact helper. -/

/-- Claim C8, counterexample: on an input with two commas the helper decodes
only the text between the first and the second comma (`split(",")[1]`), not
the whole payload after the first comma: for
`"data:image/png;base64,AAAA,BBBB"` it writes the three bytes of base64
`"AAAA"`, while decoding everything after the first comma (`"AAAA,BBBB"`,
whose comma `b64decode` discards) yields six bytes. -/
theorem save_b64_second_field_cex :
    save_b64_image_to_png "data:image/png;base64,AAAA,BBBB"
      = some [0, 0, 0] ∧
    afterFirstComma "data:image/png;base64,AAAA,BBBB"
      = some "AAAA,BBBB".data ∧
    b64decode "AAAA,BBBB".data = some [0, 0, 0, 4, 16, 65] ∧
    ¬ save_b64_image_to_png "data:image/png;base64,AAAA,BBBB"
        = b64decode "AAAA,BBBB".data := by
  refine ⟨?_, ?_, ?_, ?_⟩ <;> decide

/-- Claim C8 (amended): the helper base64-decodes the second comma-separated
field of the input — the text between the first and the second comma, which
equals everything after the first comma exactly when the input contains a
single comma — and writes those raw bytes; in particular
`"data:image/png;base64,AAAA"` writes the bytes of base64 `"AAAA"`. -/
theorem save_b64_second_segment (s : String) (p0 p1 : List Char)
    (rest : List (List Char)) (h : splitOnComma s.data = p0 :: p1 :: rest) :
    save_b64_image_to_png s = b64decode p1 ∧
    (rest = [] → afterFirstComma s = some p1) := by
  constructor
  · unfold save_b64_image_to_png
    rw [h]
    rfl
  · intro hr
    subst hr
    unfold afterFirstComma
    rw [h]
    simp [List.intercalate]

/-- Witness for the amended claim C8 on the single-comma data URI from the
spec, whose payload decodes to three zero bytes. -/
theorem save_b64_second_segment_witness :
    (save_b64_image_to_png "data:image/png;base64,AAAA"
        = b64decode "AAAA".data ∧
      (([] : List (List Char)) = [] →
        afterFirstComma "data:image/png;base64,AAAA"
          = some "AAAA".data)) ∧
    b64decode "AAAA".data = some [0, 0, 0] :=
  ⟨save_b64_second_segment "data:image/png;base64,AAAA"
      "data:image/png;base64".data "AAAA".data [] (by decide),
    by decide⟩

end HiglassViewer
